import Mathlib

/-!
Shallow embedding of `videoPipeline.ts` (video-pipeline-lab).

The program is a two-stage pipeline:
* producer (`runProducer`): for each id in a fixed work list, download a video
  to `temp/downloaded_video_<id>.mp4`, copy it into the file-system-backed
  "S3" under `videos/downloaded_video_<id>.mp4`, publish that key on the
  `video-uploads` topic, delete the scratch file; all errors in one iteration
  are caught and logged.
* consumer (`runConsumer` / `processVideo`): for a delivered key `K`, copy the
  object to `temp_encoded/<basename K>`, run one ffmpeg conversion per entry of
  `outputFormats` concurrently (`Promise.all`), each writing
  `temp_encoded/<basename K without extension>.<format>`, then sequentially
  copy each output to `encoded/<basename of output>` and delete it, and
  finally delete the local original.

Modelling decisions:
* File contents are `Nat` tags; the local filesystem and the blob store are
  association lists `List (String × Nat)` with overwrite-on-write semantics
  (`fs.copyFile` overwrites an existing destination).
* The blob store is keyed directly by the S3 key: `uploadToS3` joins
  `storageDir` with the key, a bijective renaming that we elide.
* `path.basename` / `path.extname` are implemented on `List Char` following
  Node.js semantics for the path shapes that occur here (trailing separators
  stripped, extension is the part of the basename from its last dot unless
  that dot is its first character).
* External effects are parameters: the downloader is `dl : String → Option Nat`
  (per work-list id), publishing is `pub : String → Bool`, and the encoder is
  `enc : Nat → String → Option Nat` (content of the input file and target
  format; `none` models an ffmpeg failure).
* The concurrent `Promise.all` fan-out is modelled by running every
  conversion (they all start immediately and race to completion or failure
  independently), collecting the final flag of the join: the join succeeds
  only if every conversion succeeded, while the side effects of successful
  conversions happen regardless.
* Fallible steps return `Except`; `processVideo` returns the state at the
  moment of failure together with the error, since the handler rethrows
  without any cleanup.
-/

namespace VideoPipeline

/-- Error taxonomy of the fallible pipeline steps. -/
inductive Err where
  | StoreReadError
  | StoreWriteError
  | EncodeError
  | UnlinkError
deriving DecidableEq, Repr

/-- A file map: association list from path/key to content tag. -/
abbrev FileMap := List (String × Nat)

/-- First binding for a key, as `fs` path lookup. -/
def lookupF : FileMap → String → Option Nat
  | [], _ => none
  | p :: m, k => if p.1 = k then some p.2 else lookupF m k

/-- Remove every binding of a key (used for `fs.unlinkSync`). -/
def delk : FileMap → String → FileMap
  | [], _ => []
  | p :: m, k => if p.1 = k then delk m k else p :: delk m k

/-- Overwrite a key with a new content (as `fs.copyFile` to an existing path). -/
def setk (m : FileMap) (k : String) (v : Nat) : FileMap :=
  (k, v) :: delk m k

/-- Number of objects stored under a key. -/
def countKey : FileMap → String → Nat
  | [], _ => 0
  | p :: m, k => (if p.1 = k then 1 else 0) + countKey m k

/-- Whether a file/object exists at a path/key. -/
def hask (m : FileMap) (k : String) : Bool :=
  (lookupF m k).isSome

/-- Number of occurrences of a string in a list (for published events). -/
def countS : List String → String → Nat
  | [], _ => 0
  | s :: l, k => (if s = k then 1 else 0) + countS l k

/-- Global mutable state of the pipeline: local scratch files, the
file-system-backed "S3" store, the `video-uploads` topic log, and the
`console.error` / `console.warn` counters. -/
structure PState where
  locals : FileMap
  store : FileMap
  published : List String
  errors : Nat
  warned : Nat
deriving DecidableEq, Repr

/-- Node `path.basename` on characters: strip trailing separators, then take
the segment after the last separator. -/
def basenameChars (cs : List Char) : List Char :=
  (((cs.reverse).dropWhile (fun c => c == '/')).takeWhile (fun c => c != '/')).reverse

/-- Node `path.basename`. -/
def basename (s : String) : String :=
  String.mk (basenameChars s.data)

/-- Split a separator-free name into stem and extension, Node-style: the
extension runs from the last dot unless that dot is the first character. -/
def splitExtChars (b : List Char) : List Char × List Char :=
  match b.reverse.dropWhile (fun c => c != '.') with
  | [] => (b, [])
  | _ :: post =>
    if post.isEmpty then (b, [])
    else (post.reverse, '.' :: (b.reverse.takeWhile (fun c => c != '.')).reverse)

/-- `path.basename(p, path.extname(p))`: the basename with its extension
stripped. -/
def stemOf (s : String) : String :=
  String.mk (splitExtChars (basenameChars s.data)).1

/-- `path.extname(p)`. -/
def extOf (s : String) : String :=
  String.mk (splitExtChars (basenameChars s.data)).2

/-- The configured transcode target set (`outputFormats` in the source). -/
def outputFormats : List String := ["mp4", "avi", "webm", "mkv"]

/-- `uploadToS3`: copy a local file into the store under `s3Key`; fails with a
store-write error when the local source does not exist. Overwrites any object
already stored under the key. -/
def uploadToS3 (st : PState) (localFilePath s3Key : String) : Except Err PState :=
  match lookupF st.locals localFilePath with
  | none => Except.error Err.StoreWriteError
  | some c => Except.ok { st with store := setk st.store s3Key c }

/-- `downloadFromS3`: copy the object under `s3Key` to a local path; fails
with a store-read error (not-found) when the key names no object. -/
def downloadFromS3 (st : PState) (s3Key localPath : String) : Except Err PState :=
  match lookupF st.store s3Key with
  | none => Except.error Err.StoreReadError
  | some c => Except.ok { st with locals := setk st.locals localPath c }

/-- `fs.unlinkSync`: delete a local file; throws when the file is absent. -/
def unlink (st : PState) (p : String) : Except Err PState :=
  match lookupF st.locals p with
  | none => Except.error Err.UnlinkError
  | some _ => Except.ok { st with locals := delk st.locals p }

/-- The output path computed by `encodeVideo`:
`temp_encoded/<basename of input without extension>.<format>`. -/
def encodeOutputPath (inputPath format : String) : String :=
  "temp_encoded/" ++ stemOf inputPath ++ "." ++ format

/-- `encodeVideo`: run the external encoder on a local input file for one
target format; on success the output file exists at `encodeOutputPath` and
its path is returned. Fails when the input is missing or the encoder fails. -/
def encodeVideo (enc : Nat → String → Option Nat) (st : PState)
    (inputPath format : String) : Except Err (String × PState) :=
  let outPath := encodeOutputPath inputPath format
  match lookupF st.locals inputPath with
  | none => Except.error Err.EncodeError
  | some c =>
    match enc c format with
    | none => Except.error Err.EncodeError
    | some w => Except.ok (outPath, { st with locals := setk st.locals outPath w })

/-- The `Promise.all` fan-out over the format list: every conversion runs
(they race to completion or failure independently), and the returned flag is
`true` only when every conversion succeeded. -/
def encodeAll (enc : Nat → String → Option Nat) (inputPath : String) :
    List String → PState → PState × Bool
  | [], st => (st, true)
  | format :: rest, st =>
    match encodeVideo enc st inputPath format with
    | Except.ok pr => encodeAll enc inputPath rest pr.2
    | Except.error _ => ((encodeAll enc inputPath rest st).1, false)

/-- The key an encoded local file is uploaded under:
`encoded/<basename of the file>`. -/
def upKey (p : String) : String :=
  "encoded/" ++ basename p

/-- The sequential upload-and-delete loop that follows a successful join in
`processVideo`. -/
def uploadLoop : List String → PState → Except (Err × PState) PState
  | [], st => Except.ok st
  | p :: rest, st =>
    match uploadToS3 st p (upKey p) with
    | Except.error e => Except.error (e, st)
    | Except.ok st1 =>
      match unlink st1 p with
      | Except.error e => Except.error (e, st1)
      | Except.ok st2 => uploadLoop rest st2

/-- The local scratch path `processVideo` downloads the original to:
`temp_encoded/<basename of the key>`. -/
def localPathFor (s3Key : String) : String :=
  "temp_encoded/" ++ basename s3Key

/-- `processVideo`, generalized over the configured format list: download the
original, fan out all conversions, and on a successful join sequentially
upload and delete each output, finally deleting the local original. An error
is returned together with the state at the moment of failure (the handler
rethrows without cleanup). -/
def processVideoWith (formats : List String) (enc : Nat → String → Option Nat)
    (st : PState) (s3Key : String) : Except (Err × PState) PState :=
  let localVideoPath := localPathFor s3Key
  match downloadFromS3 st s3Key localVideoPath with
  | Except.error e => Except.error (e, st)
  | Except.ok st1 =>
    let r := encodeAll enc localVideoPath formats st1
    if r.2 then
      match uploadLoop (formats.map (encodeOutputPath localVideoPath)) r.1 with
      | Except.error e => Except.error e
      | Except.ok st3 =>
        match unlink st3 localVideoPath with
        | Except.error e => Except.error (e, st3)
        | Except.ok st4 => Except.ok st4
    else Except.error (Err.EncodeError, r.1)

/-- `processVideo` as in the source: the configured formats are
`outputFormats`. -/
def processVideo (enc : Nat → String → Option Nat) (st : PState)
    (s3Key : String) : Except (Err × PState) PState :=
  processVideoWith outputFormats enc st s3Key

/-- The consumer's `eachMessage` handler: a missing or empty payload is
logged with a warning and skipped; a non-empty payload is processed. -/
def eachMessage (enc : Nat → String → Option Nat) (st : PState)
    (payload : Option String) : Except (Err × PState) PState :=
  match payload with
  | none => Except.ok { st with warned := st.warned + 1 }
  | some s =>
    if s = "" then Except.ok { st with warned := st.warned + 1 }
    else processVideo enc st s

/-- The blob-store key the producer uploads a work-list item under. -/
def prodKey (id : String) : String :=
  "videos/downloaded_video_" ++ id ++ ".mp4"

/-- The scratch path the downloader writes a work-list item to. -/
def prodLocal (id : String) : String :=
  "temp/downloaded_video_" ++ id ++ ".mp4"

/-- One iteration of the producer loop: download, upload, publish, unlink;
every error is caught and logged (`console.error`) and the loop proceeds. -/
def producerStep (dl : String → Option Nat) (pub : String → Bool)
    (st : PState) (id : String) : PState :=
  match dl id with
  | none => { st with errors := st.errors + 1 }
  | some c =>
    let st1 : PState := { st with locals := setk st.locals (prodLocal id) c }
    match uploadToS3 st1 (prodLocal id) (prodKey id) with
    | Except.error _ => { st1 with errors := st1.errors + 1 }
    | Except.ok st2 =>
      if pub (prodKey id) then
        let st3 : PState := { st2 with published := st2.published ++ [prodKey id] }
        match unlink st3 (prodLocal id) with
        | Except.ok st4 => st4
        | Except.error _ => { st3 with errors := st3.errors + 1 }
      else { st2 with errors := st2.errors + 1 }

/-- The producer loop over a work list. -/
def runProducerWith (dl : String → Option Nat) (pub : String → Bool) :
    List String → PState → PState
  | [], st => st
  | id :: rest, st => runProducerWith dl pub rest (producerStep dl pub st id)

/-- `runProducer` as in the source, over the hard-coded work list. -/
def runProducer (dl : String → Option Nat) (pub : String → Bool)
    (st : PState) : PState :=
  runProducerWith dl pub ["c-I5S_zTwAc", "DHjqpvDnNGE", "zQnBQ4tB3ZA"] st

/-- Decidable equality of handler results, for evaluating the model on
concrete inputs. -/
instance {ε α : Type} [DecidableEq ε] [DecidableEq α] : DecidableEq (Except ε α)
  | Except.error e1, Except.error e2 =>
    match decEq e1 e2 with
    | isTrue h => isTrue (by rw [h])
    | isFalse h => isFalse (by intro he; cases he; exact h rfl)
  | Except.error _, Except.ok _ => isFalse (by intro h; cases h)
  | Except.ok _, Except.error _ => isFalse (by intro h; cases h)
  | Except.ok a1, Except.ok a2 =>
    match decEq a1 a2 with
    | isTrue h => isTrue (by rw [h])
    | isFalse h => isFalse (by intro he; cases he; exact h rfl)

/-! ### Concrete instantiations used to exercise the model -/

/-- An encoder that succeeds on every input and format. -/
def encAll : Nat → String → Option Nat := fun c _ => some (c + 1)

/-- An encoder that fails on the `avi` target and succeeds on every other. -/
def encFailAvi : Nat → String → Option Nat :=
  fun c f => if f = "avi" then none else some (c + 1)

/-- The empty initial state. -/
def stEmpty : PState := ⟨[], [], [], 0, 0⟩

/-- A state whose store holds one original under `videos/y.mov`. -/
def stY : PState := ⟨[], [("videos/y.mov", 7)], [], 0, 0⟩

/-- A state whose store holds one original under `videos/x.mp4`. -/
def stX : PState := ⟨[], [("videos/x.mp4", 7)], [], 0, 0⟩

/-- The state after one successful processing of `videos/y.mov` from `stY`
(computed by the model): all four encoded outputs stored, scratch clean. -/
def stYdone : PState :=
  ⟨[], [("encoded/y.mkv", 8), ("encoded/y.webm", 8), ("encoded/y.avi", 8),
    ("encoded/y.mp4", 8), ("videos/y.mov", 7)], [], 0, 0⟩

/-- A downloader that succeeds exactly on the work-list id `v1`. -/
def dlV1 : String → Option Nat := fun i => if i = "v1" then some 5 else none

/-- A downloader that fails exactly on the work-list id `b`. -/
def dlNotB : String → Option Nat := fun i => if i = "b" then none else some 6

/-- A publisher that always succeeds. -/
def pubAll : String → Bool := fun _ => true

/-! ### Basic lemmas about the file-map operations -/

theorem lookupF_delk (m : FileMap) (k q : String) :
    lookupF (delk m k) q = if q = k then none else lookupF m q := by
  induction m with
  | nil => simp [delk, lookupF]
  | cons p m ih =>
    by_cases hp : p.1 = k
    · rw [delk, if_pos hp, ih]
      by_cases hq : q = k
      · simp [hq]
      · have hpq : p.1 ≠ q := by rw [hp]; exact Ne.symm hq
        simp [lookupF, hq, hpq]
    · rw [delk, if_neg hp]
      by_cases hpq : p.1 = q
      · have hq : q ≠ k := fun h => hp (hpq.trans h)
        simp [lookupF, hpq, hq]
      · simp [lookupF, hpq, ih]

theorem lookupF_setk_self (m : FileMap) (k : String) (v : Nat) :
    lookupF (setk m k v) k = some v := by
  simp [setk, lookupF]

theorem lookupF_setk_ne (m : FileMap) (k q : String) (v : Nat) (h : q ≠ k) :
    lookupF (setk m k v) q = lookupF m q := by
  simp [setk, lookupF, Ne.symm h, lookupF_delk, h]

theorem hask_setk_self (m : FileMap) (k : String) (v : Nat) :
    hask (setk m k v) k = true := by
  simp [hask, lookupF_setk_self]

theorem hask_setk_ne (m : FileMap) (k q : String) (v : Nat) (h : q ≠ k) :
    hask (setk m k v) q = hask m q := by
  simp [hask, lookupF_setk_ne m k q v h]

theorem hask_delk_self (m : FileMap) (k : String) :
    hask (delk m k) k = false := by
  simp [hask, lookupF_delk]

theorem hask_delk_ne (m : FileMap) (k q : String) (h : q ≠ k) :
    hask (delk m k) q = hask m q := by
  simp [hask, lookupF_delk, h]

theorem hask_delk_imp (m : FileMap) (k q : String)
    (h : hask (delk m k) q = true) : hask m q = true := by
  by_cases hq : q = k
  · rw [hq, hask_delk_self] at h; exact absurd h (by simp)
  · rwa [hask_delk_ne m k q hq] at h

theorem countKey_delk_self (m : FileMap) (k : String) :
    countKey (delk m k) k = 0 := by
  induction m with
  | nil => simp [delk, countKey]
  | cons p m ih =>
    by_cases hp : p.1 = k <;> simp [delk, countKey, hp, ih]

theorem countKey_delk_ne (m : FileMap) (k q : String) (h : q ≠ k) :
    countKey (delk m k) q = countKey m q := by
  induction m with
  | nil => simp [delk]
  | cons p m ih =>
    by_cases hp : p.1 = k
    · have hpq : p.1 ≠ q := by rw [hp]; exact Ne.symm h
      simp [delk, countKey, hp, hpq, ih, Ne.symm h]
    · simp [delk, countKey, hp, ih]

theorem countKey_setk_self (m : FileMap) (k : String) (v : Nat) :
    countKey (setk m k v) k = 1 := by
  simp [setk, countKey, countKey_delk_self]

theorem countKey_setk_ne (m : FileMap) (k q : String) (v : Nat) (h : q ≠ k) :
    countKey (setk m k v) q = countKey m q := by
  simp [setk, countKey, Ne.symm h, countKey_delk_ne m k q h]

theorem countS_append (l l2 : List String) (k : String) :
    countS (l ++ l2) k = countS l k + countS l2 k := by
  induction l with
  | nil => simp [countS]
  | cons s l ih => simp [countS, ih]; omega

/-! ### Lemmas about path manipulation -/

theorem takeWhile_all_append (p : Char → Bool) (as bs : List Char)
    (h : ∀ a ∈ as, p a = true) :
    List.takeWhile p (as ++ bs) = as ++ List.takeWhile p bs := by
  induction as with
  | nil => simp
  | cons a as ih =>
    have ha : p a = true := h a (by simp)
    have hrest : ∀ x ∈ as, p x = true := fun x hx => h x (by simp [hx])
    simp [List.takeWhile_cons, ha, ih hrest]

theorem basenameChars_no_slash (cs : List Char) :
    ∀ a ∈ basenameChars cs, (a == '/') = false := by
  intro a ha
  rw [basenameChars, List.mem_reverse] at ha
  have := List.mem_takeWhile_imp ha
  simpa using this

theorem basenameChars_append (xs ys : List Char) (h1 : ys ≠ [])
    (h2 : ∀ a ∈ ys, (a == '/') = false) :
    basenameChars (xs ++ '/' :: ys) = ys := by
  rw [basenameChars]
  have hrev : (xs ++ '/' :: ys).reverse = ys.reverse ++ '/' :: xs.reverse := by
    rw [List.reverse_append, List.reverse_cons, List.append_assoc]
    rfl
  rw [hrev]
  obtain ⟨b, t, hbt⟩ : ∃ b t, ys.reverse = b :: t := by
    cases hy : ys.reverse with
    | nil => exact absurd (by simpa using congrArg List.reverse hy) h1
    | cons b t => exact ⟨b, t, rfl⟩
  have hb : (b == '/') = false :=
    h2 b (by rw [← List.mem_reverse, hbt]; simp)
  have hdrop :
      List.dropWhile (fun c => c == '/') (ys.reverse ++ '/' :: xs.reverse) =
        ys.reverse ++ '/' :: xs.reverse := by
    rw [hbt, List.cons_append, List.dropWhile_cons]
    simp [hb]
  rw [hdrop]
  have hall : ∀ a ∈ ys.reverse, (fun c => c != '/') a = true := by
    intro a ha
    have h3 := h2 a (List.mem_reverse.mp ha)
    show (!(a == '/')) = true
    rw [h3]
    rfl
  rw [takeWhile_all_append (fun c => c != '/') ys.reverse ('/' :: xs.reverse) hall]
  simp [List.takeWhile_cons]

theorem splitExtChars_stem_mem (b : List Char) :
    ∀ a ∈ (splitExtChars b).1, a ∈ b := by
  intro a ha
  unfold splitExtChars at ha
  split at ha
  · exact ha
  · split at ha
    · exact ha
    · rename_i hd post hrest hne
      have hmem : a ∈ post := List.mem_reverse.mp ha
      have hsl := List.dropWhile_sublist (l := b.reverse) (fun c => c != '.')
      rw [hrest] at hsl
      have hsub : a ∈ b.reverse := List.Sublist.mem (by simp [hmem]) hsl
      exact List.mem_reverse.mp hsub

theorem stemOf_no_slash (s : String) :
    ∀ a ∈ (splitExtChars (basenameChars s.data)).1, (a == '/') = false :=
  fun a ha => basenameChars_no_slash s.data a (splitExtChars_stem_mem _ a ha)

/-- The blob-store key `processVideo` stores one encoded output under, as the
specification names it: `encoded/<basename of the key without extension>.<format>`. -/
def encKey (s3Key format : String) : String :=
  "encoded/" ++ stemOf s3Key ++ "." ++ format

theorem localPathFor_data (k : String) :
    (localPathFor k).data = "temp_encoded".data ++ '/' :: basenameChars k.data := by
  rw [localPathFor, basename, String.data_append]
  rfl

theorem basenameChars_localPathFor (k : String)
    (hb : basenameChars k.data ≠ []) :
    basenameChars (localPathFor k).data = basenameChars k.data := by
  rw [localPathFor_data,
    basenameChars_append _ _ hb (basenameChars_no_slash k.data)]

theorem stemOf_localPathFor (k : String) (hb : basenameChars k.data ≠ []) :
    stemOf (localPathFor k) = stemOf k := by
  rw [stemOf, stemOf, basenameChars_localPathFor k hb]

theorem encodeOutputPath_data (p f : String) :
    (encodeOutputPath p f).data =
      "temp_encoded".data ++ '/' ::
        ((splitExtChars (basenameChars p.data)).1 ++ '.' :: f.data) := by
  rw [encodeOutputPath, String.data_append, String.data_append,
    String.data_append]
  show ("temp_encoded".data ++ ['/']) ++
      (splitExtChars (basenameChars p.data)).1 ++ ['.'] ++ f.data = _
  simp

theorem basename_encodeOutputPath (k f : String)
    (hb : basenameChars k.data ≠ [])
    (hf : ∀ a ∈ f.data, (a == '/') = false) :
    basename (encodeOutputPath (localPathFor k) f) =
      String.mk ((splitExtChars (basenameChars k.data)).1 ++ '.' :: f.data) := by
  rw [basename, encodeOutputPath_data, basenameChars_localPathFor k hb]
  rw [basenameChars_append]
  · simp
  · intro a ha
    rcases List.mem_append.mp ha with h | h
    · exact stemOf_no_slash k a h
    · rcases List.mem_cons.mp h with h | h
      · rw [h]; rfl
      · exact hf a h

theorem upKey_encodeOutputPath (k f : String)
    (hb : basenameChars k.data ≠ [])
    (hf : ∀ a ∈ f.data, (a == '/') = false) :
    upKey (encodeOutputPath (localPathFor k) f) = encKey k f := by
  rw [upKey, basename_encodeOutputPath k f hb hf]
  apply String.ext
  rw [String.data_append, encKey, String.data_append, String.data_append,
    String.data_append]
  show "encoded/".data ++ ((splitExtChars (basenameChars k.data)).1 ++ '.' :: f.data)
      = (("encoded/".data ++ (stemOf k).data) ++ ".".data) ++ f.data
  rw [stemOf]
  simp

theorem encodeOutputPath_inj (p f g : String)
    (h : encodeOutputPath p f = encodeOutputPath p g) : f = g := by
  apply String.ext
  have h2 := congrArg String.data h
  rw [encodeOutputPath, encodeOutputPath, String.data_append,
    String.data_append] at h2
  exact List.append_cancel_left h2

theorem encKey_inj (k f g : String) (h : encKey k f = encKey k g) : f = g := by
  apply String.ext
  have h2 := congrArg String.data h
  rw [encKey, encKey, String.data_append, String.data_append] at h2
  exact List.append_cancel_left h2

theorem prodKey_inj (a b : String) (h : prodKey a = prodKey b) : a = b := by
  apply String.ext
  have h2 := congrArg String.data h
  rw [prodKey, prodKey, String.data_append, String.data_append] at h2
  exact List.append_cancel_left (List.append_cancel_right h2)

theorem outputFormats_no_slash :
    ∀ f ∈ outputFormats, ∀ a ∈ f.data, (a == '/') = false := by
  decide

theorem outputFormats_nodup : outputFormats.Nodup := by
  decide

/-! ### Rewriting equations for the fallible operations -/

theorem uploadToS3_none {st : PState} {p : String} (K : String)
    (h : lookupF st.locals p = none) :
    uploadToS3 st p K = Except.error Err.StoreWriteError := by
  rw [uploadToS3, h]

theorem uploadToS3_some {st : PState} {p : String} {c : Nat} (K : String)
    (h : lookupF st.locals p = some c) :
    uploadToS3 st p K = Except.ok { st with store := setk st.store K c } := by
  rw [uploadToS3, h]

theorem downloadFromS3_none {st : PState} {k : String} (p : String)
    (h : lookupF st.store k = none) :
    downloadFromS3 st k p = Except.error Err.StoreReadError := by
  rw [downloadFromS3, h]

theorem downloadFromS3_some {st : PState} {k : String} {c : Nat} (p : String)
    (h : lookupF st.store k = some c) :
    downloadFromS3 st k p = Except.ok { st with locals := setk st.locals p c } := by
  rw [downloadFromS3, h]

theorem unlink_none {st : PState} {p : String}
    (h : lookupF st.locals p = none) :
    unlink st p = Except.error Err.UnlinkError := by
  rw [unlink, h]

theorem unlink_some {st : PState} {p : String} {c : Nat}
    (h : lookupF st.locals p = some c) :
    unlink st p = Except.ok { st with locals := delk st.locals p } := by
  rw [unlink, h]

theorem encodeVideo_no_input {enc : Nat → String → Option Nat} {st : PState}
    {p : String} (f : String) (h : lookupF st.locals p = none) :
    encodeVideo enc st p f = Except.error Err.EncodeError := by
  rw [encodeVideo, h]

theorem encodeVideo_enc_fails {enc : Nat → String → Option Nat} {st : PState}
    {p : String} {c : Nat} {f : String} (h : lookupF st.locals p = some c)
    (he : enc c f = none) :
    encodeVideo enc st p f = Except.error Err.EncodeError := by
  rw [encodeVideo, h]
  simp only [he]

theorem encodeVideo_enc_ok {enc : Nat → String → Option Nat} {st : PState}
    {p : String} {c w : Nat} {f : String} (h : lookupF st.locals p = some c)
    (he : enc c f = some w) :
    encodeVideo enc st p f =
      Except.ok (encodeOutputPath p f,
        { st with locals := setk st.locals (encodeOutputPath p f) w }) := by
  rw [encodeVideo, h]
  simp only [he]

/-! ### Lemmas about the concurrent encode fan-out -/

/-- The locals produced by a run of all conversions with a stable input of
content `c`: each successful conversion writes its output file. -/
def encFold (enc : Nat → String → Option Nat) (p : String) (c : Nat) :
    List String → FileMap → FileMap
  | [], L => L
  | f :: fs, L =>
    match enc c f with
    | some w => encFold enc p c fs (setk L (encodeOutputPath p f) w)
    | none => encFold enc p c fs L

theorem hask_setk_mono (L : FileMap) (k q : String) (v : Nat)
    (h : hask L q = true) : hask (setk L k v) q = true := by
  by_cases hq : q = k
  · rw [hq, hask_setk_self]
  · rwa [hask_setk_ne L k q v hq]

theorem encodeAll_nonlocals (enc : Nat → String → Option Nat) (p : String) :
    ∀ (fs : List String) (st : PState),
      (encodeAll enc p fs st).1 =
        { st with locals := (encodeAll enc p fs st).1.locals } := by
  intro fs
  induction fs with
  | nil => intro st; rfl
  | cons f fs ih =>
    intro st
    cases hc : lookupF st.locals p with
    | none =>
      rw [encodeAll, encodeVideo_no_input f hc]
      exact ih st
    | some c =>
      cases he : enc c f with
      | none =>
        rw [encodeAll, encodeVideo_enc_fails hc he]
        exact ih st
      | some w =>
        rw [encodeAll, encodeVideo_enc_ok hc he]
        exact ih { st with locals := setk st.locals (encodeOutputPath p f) w }

theorem encodeAll_store (enc : Nat → String → Option Nat) (p : String)
    (fs : List String) (st : PState) :
    (encodeAll enc p fs st).1.store = st.store := by
  rw [encodeAll_nonlocals enc p fs st]

theorem encodeAll_published (enc : Nat → String → Option Nat) (p : String)
    (fs : List String) (st : PState) :
    (encodeAll enc p fs st).1.published = st.published := by
  rw [encodeAll_nonlocals enc p fs st]

theorem encodeAll_stable (enc : Nat → String → Option Nat) (p : String)
    (c : Nat) :
    ∀ (fs : List String) (st : PState),
      lookupF st.locals p = some c →
      (∀ f ∈ fs, encodeOutputPath p f ≠ p) →
      (encodeAll enc p fs st).2 = fs.all (fun f => (enc c f).isSome) ∧
      (encodeAll enc p fs st).1.locals = encFold enc p c fs st.locals := by
  intro fs
  induction fs with
  | nil => intro st _ _; exact ⟨rfl, rfl⟩
  | cons f fs ih =>
    intro st hin hout
    have hrest : ∀ g ∈ fs, encodeOutputPath p g ≠ p :=
      fun g hg => hout g (by simp [hg])
    cases he : enc c f with
    | none =>
      rw [encodeAll, encodeVideo_enc_fails hin he]
      have := ih st hin hrest
      refine ⟨?_, ?_⟩
      · simp [he]
      · rw [this.2, encFold]
        simp only [he]
    | some w =>
      rw [encodeAll, encodeVideo_enc_ok hin he]
      have hin2 : lookupF (setk st.locals (encodeOutputPath p f) w) p = some c := by
        rw [lookupF_setk_ne _ _ _ _ (Ne.symm (hout f (by simp)))]
        exact hin
      have := ih { st with locals := setk st.locals (encodeOutputPath p f) w }
        hin2 hrest
      refine ⟨?_, ?_⟩
      · rw [this.1]; simp [he]
      · rw [this.2, encFold]
        simp only [he]

theorem encFold_lookup_untouched (enc : Nat → String → Option Nat)
    (p : String) (c : Nat) :
    ∀ (fs : List String) (L : FileMap) (q : String),
      (∀ f ∈ fs, encodeOutputPath p f ≠ q) →
      lookupF (encFold enc p c fs L) q = lookupF L q := by
  intro fs
  induction fs with
  | nil => intro L q _; rfl
  | cons f fs ih =>
    intro L q h
    have hrest : ∀ g ∈ fs, encodeOutputPath p g ≠ q :=
      fun g hg => h g (by simp [hg])
    cases he : enc c f with
    | none => rw [encFold]; simp only [he]; exact ih L q hrest
    | some w =>
      rw [encFold]; simp only [he]
      rw [ih _ q hrest, lookupF_setk_ne _ _ _ _ (Ne.symm (h f (by simp)))]

theorem encFold_output (enc : Nat → String → Option Nat) (p : String)
    (c : Nat) :
    ∀ (fs : List String) (L : FileMap) (f : String) (w : Nat),
      f ∈ fs → enc c f = some w →
      lookupF (encFold enc p c fs L) (encodeOutputPath p f) = some w := by
  intro fs
  induction fs with
  | nil => intro L f w hf _; exact absurd hf (by simp)
  | cons g fs ih =>
    intro L f w hf he
    by_cases hmem : f ∈ fs
    · cases heg : enc c g with
      | none => rw [encFold]; simp only [heg]; exact ih L f w hmem he
      | some w2 => rw [encFold]; simp only [heg]; exact ih _ f w hmem he
    · have hg : g = f := by
        rcases List.mem_cons.mp hf with h | h
        · exact h.symm
        · exact absurd h hmem
      subst hg
      rw [encFold]
      simp only [he]
      rw [encFold_lookup_untouched enc p c fs _ _
        (fun h hh hcontra => hmem ((encodeOutputPath_inj p h g hcontra) ▸ hh))]
      exact lookupF_setk_self _ _ _

theorem encodeAll_flag_false (enc : Nat → String → Option Nat) (p : String)
    (f : String) (hf : ∀ c', enc c' f = none) :
    ∀ (fs : List String) (st : PState), f ∈ fs →
      (encodeAll enc p fs st).2 = false := by
  intro fs
  induction fs with
  | nil => intro st hmem; exact absurd hmem (by simp)
  | cons g fs ih =>
    intro st hmem
    by_cases hg : f ∈ fs
    · rw [encodeAll]
      cases hev : encodeVideo enc st p g with
      | ok pr => exact ih pr.2 hg
      | error e => simp only []
    · have hgf : g = f := by
        rcases List.mem_cons.mp hmem with h | h
        · exact h.symm
        · exact absurd h hg
      subst hgf
      rw [encodeAll]
      cases hc : lookupF st.locals p with
      | none => rw [encodeVideo_no_input g hc]
      | some c => rw [encodeVideo_enc_fails hc (hf c)]

theorem encodeAll_hask_mono (enc : Nat → String → Option Nat) (p : String) :
    ∀ (fs : List String) (st : PState) (q : String),
      hask st.locals q = true →
      hask (encodeAll enc p fs st).1.locals q = true := by
  intro fs
  induction fs with
  | nil => intro st q h; exact h
  | cons f fs ih =>
    intro st q h
    cases hc : lookupF st.locals p with
    | none => rw [encodeAll, encodeVideo_no_input f hc]; exact ih st q h
    | some c =>
      cases he : enc c f with
      | none => rw [encodeAll, encodeVideo_enc_fails hc he]; exact ih st q h
      | some w =>
        rw [encodeAll, encodeVideo_enc_ok hc he]
        exact ih _ q (hask_setk_mono _ _ _ _ h)

theorem encodeAll_output_kept (enc : Nat → String → Option Nat) (p : String)
    (g : String) (hg : ∀ c', (enc c' g).isSome = true) :
    ∀ (fs : List String) (st : PState), g ∈ fs →
      hask st.locals p = true →
      hask (encodeAll enc p fs st).1.locals (encodeOutputPath p g) = true := by
  intro fs
  induction fs with
  | nil => intro st hmem; exact absurd hmem (by simp)
  | cons f fs ih =>
    intro st hmem hp
    by_cases hf : g ∈ fs
    · cases hc : lookupF st.locals p with
      | none => rw [encodeAll, encodeVideo_no_input f hc]; exact ih st hf hp
      | some c =>
        cases he : enc c f with
        | none => rw [encodeAll, encodeVideo_enc_fails hc he]; exact ih st hf hp
        | some w =>
          rw [encodeAll, encodeVideo_enc_ok hc he]
          exact ih _ hf (hask_setk_mono _ _ _ _ hp)
    · have hgf : f = g := by
        rcases List.mem_cons.mp hmem with h | h
        · exact h.symm
        · exact absurd h hf
      subst hgf
      obtain ⟨c, hc⟩ : ∃ c, lookupF st.locals p = some c := by
        rw [hask] at hp
        cases hl : lookupF st.locals p with
        | none => rw [hl] at hp; exact absurd hp (by simp)
        | some c => exact ⟨c, rfl⟩
      obtain ⟨w, hw⟩ : ∃ w, enc c f = some w := by
        have := hg c
        cases hl : enc c f with
        | none => rw [hl] at this; exact absurd this (by simp)
        | some w => exact ⟨w, rfl⟩
      rw [encodeAll, encodeVideo_enc_ok hc hw]
      exact encodeAll_hask_mono enc p fs _ _ (hask_setk_self _ _ _)

/-! ### Lemmas about the sequential upload-and-delete loop -/

theorem uploadLoop_cons_none {st : PState} {p : String} (rest : List String)
    (hc : lookupF st.locals p = none) :
    uploadLoop (p :: rest) st = Except.error (Err.StoreWriteError, st) := by
  simp only [uploadLoop, uploadToS3_none _ hc]

theorem uploadLoop_cons_step {st : PState} {p : String} {c : Nat}
    (rest : List String) (hc : lookupF st.locals p = some c) :
    uploadLoop (p :: rest) st =
      uploadLoop rest
        { st with store := setk st.store (upKey p) c,
                  locals := delk st.locals p } := by
  have hc1 : lookupF ({ st with store := setk st.store (upKey p) c } : PState).locals p
      = some c := hc
  simp only [uploadLoop, uploadToS3_some _ hc, unlink_some hc1]

theorem uploadLoop_cons_ok {p : String} {rest : List String} {st st' : PState}
    (h : uploadLoop (p :: rest) st = Except.ok st') :
    ∃ c, lookupF st.locals p = some c ∧
      uploadLoop rest
        { st with store := setk st.store (upKey p) c,
                  locals := delk st.locals p } = Except.ok st' := by
  cases hc : lookupF st.locals p with
  | none =>
    rw [uploadLoop_cons_none rest hc] at h
    simp at h
  | some c =>
    rw [uploadLoop_cons_step rest hc] at h
    exact ⟨c, rfl, h⟩

theorem uploadLoop_locals_subset :
    ∀ (ps : List String) (st st' : PState),
      uploadLoop ps st = Except.ok st' →
      ∀ q, hask st'.locals q = true → hask st.locals q = true := by
  intro ps
  induction ps with
  | nil =>
    intro st st' h q hq
    rw [uploadLoop] at h
    cases h
    exact hq
  | cons p rest ih =>
    intro st st' h q hq
    obtain ⟨c, hc, hrest⟩ := uploadLoop_cons_ok h
    have h2 : hask (delk st.locals p) q = true := ih _ _ hrest q hq
    exact hask_delk_imp _ _ _ h2

theorem uploadLoop_paths_gone :
    ∀ (ps : List String) (st st' : PState),
      uploadLoop ps st = Except.ok st' →
      ∀ p ∈ ps, hask st'.locals p = false := by
  intro ps
  induction ps with
  | nil => intro st st' _ p hp; exact absurd hp (by simp)
  | cons p0 rest ih =>
    intro st st' h p hp
    obtain ⟨c, hc, hrest⟩ := uploadLoop_cons_ok h
    rcases List.mem_cons.mp hp with hp0 | hpr
    · subst hp0
      cases hsk : hask st'.locals p with
      | false => rfl
      | true =>
        have h2 : hask (delk st.locals p) p = true :=
          uploadLoop_locals_subset rest _ _ hrest p hsk
        rw [hask_delk_self] at h2
        exact h2.symm
    · exact ih _ _ hrest p hpr

theorem uploadLoop_locals_kept :
    ∀ (ps : List String) (st st' : PState),
      uploadLoop ps st = Except.ok st' →
      ∀ q, q ∉ ps → hask st.locals q = true → hask st'.locals q = true := by
  intro ps
  induction ps with
  | nil =>
    intro st st' h q _ hq
    rw [uploadLoop] at h
    cases h
    exact hq
  | cons p rest ih =>
    intro st st' h q hnot hq
    obtain ⟨c, hc, hrest⟩ := uploadLoop_cons_ok h
    have hqp : q ≠ p := fun he => hnot (by simp [he])
    refine ih _ _ hrest q (fun hr => hnot (by simp [hr])) ?_
    show hask (delk st.locals p) q = true
    rwa [hask_delk_ne _ _ _ hqp]

theorem uploadLoop_store_untouched :
    ∀ (ps : List String) (st st' : PState),
      uploadLoop ps st = Except.ok st' →
      ∀ K, K ∉ ps.map upKey →
        lookupF st'.store K = lookupF st.store K ∧
        countKey st'.store K = countKey st.store K := by
  intro ps
  induction ps with
  | nil =>
    intro st st' h K _
    rw [uploadLoop] at h
    cases h
    exact ⟨rfl, rfl⟩
  | cons p rest ih =>
    intro st st' h K hK
    obtain ⟨c, hc, hrest⟩ := uploadLoop_cons_ok h
    have hne : K ≠ upKey p := fun he => hK (by simp [he])
    have hKr : K ∉ rest.map upKey := by
      intro hr
      exact hK (by simp at hr ⊢; right; exact hr)
    obtain ⟨h1, h2⟩ := ih _ _ hrest K hKr
    constructor
    · rw [h1]
      show lookupF (setk st.store (upKey p) c) K = lookupF st.store K
      exact lookupF_setk_ne _ _ _ _ hne
    · rw [h2]
      show countKey (setk st.store (upKey p) c) K = countKey st.store K
      exact countKey_setk_ne _ _ _ _ hne

theorem uploadLoop_uploaded_once :
    ∀ (ps : List String) (st st' : PState),
      uploadLoop ps st = Except.ok st' →
      ∀ K, K ∈ ps.map upKey → countKey st'.store K = 1 := by
  intro ps
  induction ps with
  | nil => intro st st' _ K hK; exact absurd hK (by simp)
  | cons p rest ih =>
    intro st st' h K hK
    obtain ⟨c, hc, hrest⟩ := uploadLoop_cons_ok h
    by_cases hKr : K ∈ rest.map upKey
    · exact ih _ _ hrest K hKr
    · have hKp : K = upKey p := by
        rcases List.mem_cons.mp hK with h1 | h1
        · exact h1
        · exact absurd h1 hKr
      subst hKp
      have h2 := (uploadLoop_store_untouched rest _ _ hrest (upKey p) hKr).2
      rw [h2]
      show countKey (setk st.store (upKey p) c) (upKey p) = 1
      exact countKey_setk_self _ _ _

theorem uploadLoop_uploaded_value :
    ∀ (ps : List String) (st st' : PState),
      uploadLoop ps st = Except.ok st' → ps.Nodup →
      ∀ p ∈ ps, (∀ q ∈ ps, q ≠ p → upKey q ≠ upKey p) →
        lookupF st'.store (upKey p) = lookupF st.locals p := by
  intro ps
  induction ps with
  | nil => intro st st' _ _ p hp; exact absurd hp (by simp)
  | cons p0 rest ih =>
    intro st st' h hnd p hp hdist
    obtain ⟨c, hc, hrest⟩ := uploadLoop_cons_ok h
    rcases List.mem_cons.mp hp with hp0 | hpr
    · subst hp0
      have hnot : upKey p ∉ rest.map upKey := by
        intro hmem
        obtain ⟨q, hq, hqe⟩ := List.mem_map.mp hmem
        have hqp : q ≠ p := by
          intro he
          subst he
          exact (List.nodup_cons.mp hnd).1 hq
        exact hdist q (by simp [hq]) hqp hqe
      have h2 := (uploadLoop_store_untouched rest _ _ hrest (upKey p) hnot).1
      rw [h2, hc]
      show lookupF (setk st.store (upKey p) c) (upKey p) = some c
      exact lookupF_setk_self _ _ _
    · have hop : p ≠ p0 := by
        intro he
        subst he
        exact (List.nodup_cons.mp hnd).1 hpr
      have h2 := ih _ _ hrest (List.nodup_cons.mp hnd).2 p hpr
        (fun q hq hqp => hdist q (by simp [hq]) hqp)
      rw [h2]
      show lookupF (delk st.locals p0) p = lookupF st.locals p
      rw [lookupF_delk]
      simp [hop]

theorem uploadLoop_total :
    ∀ (ps : List String) (st : PState), ps.Nodup →
      (∀ p ∈ ps, hask st.locals p = true) →
      ∃ st', uploadLoop ps st = Except.ok st' := by
  intro ps
  induction ps with
  | nil => intro st _ _; exact ⟨st, rfl⟩
  | cons p rest ih =>
    intro st hnd hall
    have hp : hask st.locals p = true := hall p (by simp)
    obtain ⟨c, hc⟩ : ∃ c, lookupF st.locals p = some c := by
      rw [hask] at hp
      cases hl : lookupF st.locals p with
      | none => rw [hl] at hp; exact absurd hp (by simp)
      | some c => exact ⟨c, rfl⟩
    have hrest : ∀ q ∈ rest, hask (delk st.locals p) q = true := by
      intro q hq
      have hqp : q ≠ p := by
        intro he
        subst he
        exact (List.nodup_cons.mp hnd).1 hq
      rw [hask_delk_ne _ _ _ hqp]
      exact hall q (by simp [hq])
    obtain ⟨st', hst'⟩ := ih
      { st with store := setk st.store (upKey p) c, locals := delk st.locals p }
      (List.nodup_cons.mp hnd).2 hrest
    exact ⟨st', by rw [uploadLoop_cons_step rest hc]; exact hst'⟩

/-! ### Unfolding equations and inversion for the message handler -/

theorem processVideoWith_no_object (formats : List String)
    (enc : Nat → String → Option Nat) {st : PState} {k : String}
    (hc : lookupF st.store k = none) :
    processVideoWith formats enc st k =
      Except.error (Err.StoreReadError, st) := by
  simp only [processVideoWith, downloadFromS3_none _ hc]

theorem processVideoWith_join_fails (formats : List String)
    (enc : Nat → String → Option Nat) {st : PState} {k : String} {c : Nat}
    (hc : lookupF st.store k = some c)
    (hflag : (encodeAll enc (localPathFor k) formats
      { st with locals := setk st.locals (localPathFor k) c }).2 = false) :
    processVideoWith formats enc st k =
      Except.error (Err.EncodeError,
        (encodeAll enc (localPathFor k) formats
          { st with locals := setk st.locals (localPathFor k) c }).1) := by
  simp only [processVideoWith, downloadFromS3_some _ hc, hflag, Bool.false_eq_true,
    if_false]

theorem processVideoWith_upload_fails (formats : List String)
    (enc : Nat → String → Option Nat) {st : PState} {k : String} {c : Nat}
    {e : Err × PState}
    (hc : lookupF st.store k = some c)
    (hflag : (encodeAll enc (localPathFor k) formats
      { st with locals := setk st.locals (localPathFor k) c }).2 = true)
    (hup : uploadLoop (formats.map (encodeOutputPath (localPathFor k)))
      (encodeAll enc (localPathFor k) formats
        { st with locals := setk st.locals (localPathFor k) c }).1 =
      Except.error e) :
    processVideoWith formats enc st k = Except.error e := by
  simp only [processVideoWith, downloadFromS3_some _ hc, hflag, if_true, hup]

theorem processVideoWith_unlink_fails (formats : List String)
    (enc : Nat → String → Option Nat) {st st3 : PState} {k : String} {c : Nat}
    {e : Err}
    (hc : lookupF st.store k = some c)
    (hflag : (encodeAll enc (localPathFor k) formats
      { st with locals := setk st.locals (localPathFor k) c }).2 = true)
    (hup : uploadLoop (formats.map (encodeOutputPath (localPathFor k)))
      (encodeAll enc (localPathFor k) formats
        { st with locals := setk st.locals (localPathFor k) c }).1 =
      Except.ok st3)
    (hul : unlink st3 (localPathFor k) = Except.error e) :
    processVideoWith formats enc st k = Except.error (e, st3) := by
  simp only [processVideoWith, downloadFromS3_some _ hc, hflag, if_true, hup, hul]

theorem processVideoWith_all_ok (formats : List String)
    (enc : Nat → String → Option Nat) {st st3 st4 : PState} {k : String} {c : Nat}
    (hc : lookupF st.store k = some c)
    (hflag : (encodeAll enc (localPathFor k) formats
      { st with locals := setk st.locals (localPathFor k) c }).2 = true)
    (hup : uploadLoop (formats.map (encodeOutputPath (localPathFor k)))
      (encodeAll enc (localPathFor k) formats
        { st with locals := setk st.locals (localPathFor k) c }).1 =
      Except.ok st3)
    (hul : unlink st3 (localPathFor k) = Except.ok st4) :
    processVideoWith formats enc st k = Except.ok st4 := by
  simp only [processVideoWith, downloadFromS3_some _ hc, hflag, if_true, hup, hul]

theorem processVideoWith_ok_inv {formats : List String}
    {enc : Nat → String → Option Nat} {st st' : PState} {k : String}
    (h : processVideoWith formats enc st k = Except.ok st') :
    ∃ c st3, lookupF st.store k = some c ∧
      (encodeAll enc (localPathFor k) formats
        { st with locals := setk st.locals (localPathFor k) c }).2 = true ∧
      uploadLoop (formats.map (encodeOutputPath (localPathFor k)))
        (encodeAll enc (localPathFor k) formats
          { st with locals := setk st.locals (localPathFor k) c }).1 =
        Except.ok st3 ∧
      unlink st3 (localPathFor k) = Except.ok st' := by
  cases hc : lookupF st.store k with
  | none =>
    rw [processVideoWith_no_object formats enc hc] at h
    simp at h
  | some c =>
    cases hflag : (encodeAll enc (localPathFor k) formats
        { st with locals := setk st.locals (localPathFor k) c }).2 with
    | false =>
      rw [processVideoWith_join_fails formats enc hc hflag] at h
      simp at h
    | true =>
      cases hup : uploadLoop (formats.map (encodeOutputPath (localPathFor k)))
          (encodeAll enc (localPathFor k) formats
            { st with locals := setk st.locals (localPathFor k) c }).1 with
      | error e =>
        rw [processVideoWith_upload_fails formats enc hc hflag hup] at h
        simp at h
      | ok st3 =>
        cases hul : unlink st3 (localPathFor k) with
        | error e =>
          rw [processVideoWith_unlink_fails formats enc hc hflag hup hul] at h
          simp at h
        | ok st4 =>
          rw [processVideoWith_all_ok formats enc hc hflag hup hul] at h
          cases h
          exact ⟨c, st3, rfl, hflag, hup, hul⟩

/-! ### Further path lemmas needed for redelivery reasoning -/

theorem basename_encodeOutputPath_general (p f : String)
    (hf : ∀ a ∈ f.data, (a == '/') = false) :
    basename (encodeOutputPath p f) =
      String.mk ((splitExtChars (basenameChars p.data)).1 ++ '.' :: f.data) := by
  rw [basename, encodeOutputPath_data]
  rw [basenameChars_append]
  · simp
  · intro a ha
    rcases List.mem_append.mp ha with h | h
    · exact stemOf_no_slash p a h
    · rcases List.mem_cons.mp h with h | h
      · rw [h]; rfl
      · exact hf a h

theorem upKey_encodeOutputPath_inj (p f g : String)
    (hf : ∀ a ∈ f.data, (a == '/') = false)
    (hg : ∀ a ∈ g.data, (a == '/') = false)
    (h : upKey (encodeOutputPath p f) = upKey (encodeOutputPath p g)) :
    f = g := by
  rw [upKey, upKey, basename_encodeOutputPath_general p f hf,
    basename_encodeOutputPath_general p g hg] at h
  have h2 := congrArg String.data h
  rw [String.data_append, String.data_append] at h2
  have h3 := List.append_cancel_left h2
  have h4 := List.append_cancel_left h3
  have h5 : f.data = g.data := by
    have := congrArg List.tail h4
    simpa using this
  exact String.ext h5

theorem key_eq_upKey_forces_collision (k f : String)
    (hf : ∀ a ∈ f.data, (a == '/') = false)
    (h : k = upKey (encodeOutputPath (localPathFor k) f)) :
    localPathFor k = encodeOutputPath (localPathFor k) f := by
  have hup : (upKey (encodeOutputPath (localPathFor k) f)).data =
      "encoded".data ++ '/' ::
        ((splitExtChars (basenameChars (localPathFor k).data)).1 ++ '.' :: f.data) := by
    unfold upKey
    rw [basename_encodeOutputPath_general (localPathFor k) f hf, String.data_append]
    rfl
  have hk : k.data =
      "encoded".data ++ '/' ::
        ((splitExtChars (basenameChars (localPathFor k).data)).1 ++ '.' :: f.data) :=
    (congrArg String.data h).trans hup
  have hbk : basenameChars k.data =
      (splitExtChars (basenameChars (localPathFor k).data)).1 ++ '.' :: f.data := by
    rw [hk]
    apply basenameChars_append
    · simp
    · intro a ha
      rcases List.mem_append.mp ha with h2 | h2
      · exact stemOf_no_slash (localPathFor k) a h2
      · rcases List.mem_cons.mp h2 with h2 | h2
        · rw [h2]; rfl
        · exact hf a h2
  apply String.ext
  rw [localPathFor_data, encodeOutputPath_data, hbk]

theorem unlink_ok_inv {st st' : PState} {p : String}
    (h : unlink st p = Except.ok st') :
    hask st.locals p = true ∧ st' = { st with locals := delk st.locals p } := by
  cases hl : lookupF st.locals p with
  | none =>
    rw [unlink_none hl] at h
    simp at h
  | some c =>
    rw [unlink_some hl] at h
    cases h
    exact ⟨by rw [hask, hl]; rfl, rfl⟩

theorem all_isSome_get {enc : Nat → String → Option Nat} {c : Nat}
    {fs : List String}
    (h : fs.all (fun f => (enc c f).isSome) = true) :
    ∀ f ∈ fs, ∃ w, enc c f = some w := by
  intro f hf
  have := List.all_eq_true.mp h f hf
  cases he : enc c f with
  | none => rw [he] at this; exact absurd this (by simp)
  | some w => exact ⟨w, rfl⟩

theorem hask_true_exists {m : FileMap} {k : String}
    (h : hask m k = true) : ∃ v, lookupF m k = some v := by
  rw [hask] at h
  cases hl : lookupF m k with
  | none => rw [hl] at h; exact absurd h (by simp)
  | some v => exact ⟨v, rfl⟩

/-! ### Lemmas about the producer loop -/

theorem delk_delk_self (m : FileMap) (k : String) :
    delk (delk m k) k = delk m k := by
  induction m with
  | nil => rfl
  | cons p m ih =>
    by_cases hp : p.1 = k
    · simp [delk, hp, ih]
    · simp [delk, hp, ih]

theorem delk_setk_self (m : FileMap) (k : String) (v : Nat) :
    delk (setk m k v) k = delk m k := by
  simp [setk, delk, delk_delk_self]

theorem countS_zero_not_mem {l : List String} {k : String}
    (h : countS l k = 0) : k ∉ l := by
  induction l with
  | nil => simp
  | cons s l ih =>
    rw [countS] at h
    by_cases hs : s = k
    · rw [if_pos hs] at h; omega
    · rw [if_neg hs] at h
      simp only [List.mem_cons, not_or]
      exact ⟨fun he => hs he.symm, ih (by omega)⟩

theorem producerStep_dl_fails (dl : String → Option Nat) (pub : String → Bool)
    (st : PState) (id : String) (h : dl id = none) :
    producerStep dl pub st id = { st with errors := st.errors + 1 } := by
  simp only [producerStep, h]

theorem producerStep_success (dl : String → Option Nat) (pub : String → Bool)
    (st : PState) (id : String) (c : Nat)
    (hdl : dl id = some c) (hpub : pub (prodKey id) = true) :
    producerStep dl pub st id =
      { st with locals := delk st.locals (prodLocal id),
                store := setk st.store (prodKey id) c,
                published := st.published ++ [prodKey id] } := by
  have hc1 : lookupF ((⟨setk st.locals (prodLocal id) c, st.store, st.published,
      st.errors, st.warned⟩ : PState)).locals (prodLocal id) = some c :=
    lookupF_setk_self _ _ _
  have hc2 : lookupF ((⟨setk st.locals (prodLocal id) c, setk st.store (prodKey id) c,
      st.published ++ [prodKey id], st.errors, st.warned⟩ : PState)).locals
      (prodLocal id) = some c := lookupF_setk_self _ _ _
  simp only [producerStep, hdl, uploadToS3_some _ hc1, hpub, if_true,
    unlink_some hc2, delk_setk_self]

theorem producerStep_pub_fails (dl : String → Option Nat) (pub : String → Bool)
    (st : PState) (id : String) (c : Nat)
    (hdl : dl id = some c) (hpub : pub (prodKey id) = false) :
    producerStep dl pub st id =
      { st with locals := setk st.locals (prodLocal id) c,
                store := setk st.store (prodKey id) c,
                errors := st.errors + 1 } := by
  have hc1 : lookupF ((⟨setk st.locals (prodLocal id) c, st.store, st.published,
      st.errors, st.warned⟩ : PState)).locals (prodLocal id) = some c :=
    lookupF_setk_self _ _ _
  simp only [producerStep, hdl, uploadToS3_some _ hc1, hpub, Bool.false_eq_true,
    if_false]

theorem producerStep_other_key (dl : String → Option Nat) (pub : String → Bool)
    (st : PState) (id : String) (K : String) (hK : K ≠ prodKey id) :
    countKey (producerStep dl pub st id).store K = countKey st.store K ∧
    countS (producerStep dl pub st id).published K = countS st.published K ∧
    hask (producerStep dl pub st id).store K = hask st.store K := by
  have hne2 : prodKey id ≠ K := fun h => hK h.symm
  cases hdl : dl id with
  | none =>
    rw [producerStep_dl_fails dl pub st id hdl]
    exact ⟨rfl, rfl, rfl⟩
  | some c =>
    cases hpub : pub (prodKey id) with
    | true =>
      rw [producerStep_success dl pub st id c hdl hpub]
      refine ⟨countKey_setk_ne _ _ _ _ hK, ?_, ?_⟩
      · show countS (st.published ++ [prodKey id]) K = countS st.published K
        simp [countS_append, countS, hne2]
      · show hask (setk st.store (prodKey id) c) K = hask st.store K
        exact hask_setk_ne _ _ _ _ hK
    | false =>
      rw [producerStep_pub_fails dl pub st id c hdl hpub]
      exact ⟨countKey_setk_ne _ _ _ _ hK, rfl, hask_setk_ne _ _ _ _ hK⟩

theorem runProducerWith_other_key (dl : String → Option Nat)
    (pub : String → Bool) :
    ∀ (ids : List String) (st : PState) (K : String),
      (∀ id ∈ ids, prodKey id ≠ K) →
      countKey (runProducerWith dl pub ids st).store K = countKey st.store K ∧
      countS (runProducerWith dl pub ids st).published K = countS st.published K ∧
      hask (runProducerWith dl pub ids st).store K = hask st.store K := by
  intro ids
  induction ids with
  | nil => intro st K _; exact ⟨rfl, rfl, rfl⟩
  | cons a rest ih =>
    intro st K hall
    have hKa : K ≠ prodKey a := fun h => hall a (by simp) h.symm
    obtain ⟨s1, s2, s3⟩ := producerStep_other_key dl pub st a K hKa
    obtain ⟨r1, r2, r3⟩ := ih (producerStep dl pub st a) K
      (fun id hid => hall id (by simp [hid]))
    exact ⟨r1.trans s1, r2.trans s2, r3.trans s3⟩

/-! ### Claim theorems -/

/-- C2: for every PipelineEvent, if any one of the concurrent format
conversions fails — i.e. the `Promise.all` join over `outputFormats` reports
failure — then zero objects under `encoded/` are written for that event (the
blob store of the failure state equals the initial store, since the
sequential upload step only runs after a fully successful join), and the
failure propagates uncaught out of the message handler. -/
theorem encode_failure_uploads_nothing (enc : Nat → String → Option Nat)
    (st : PState) (k : String) (c : Nat)
    (hk : lookupF st.store k = some c) (hne : k ≠ "")
    (hfail : (encodeAll enc (localPathFor k) outputFormats
      { st with locals := setk st.locals (localPathFor k) c }).2 = false) :
    processVideo enc st k =
      Except.error (Err.EncodeError,
        (encodeAll enc (localPathFor k) outputFormats
          { st with locals := setk st.locals (localPathFor k) c }).1) ∧
    (encodeAll enc (localPathFor k) outputFormats
      { st with locals := setk st.locals (localPathFor k) c }).1.store = st.store ∧
    eachMessage enc st (some k) =
      Except.error (Err.EncodeError,
        (encodeAll enc (localPathFor k) outputFormats
          { st with locals := setk st.locals (localPathFor k) c }).1) := by
  have h1 : processVideo enc st k =
      Except.error (Err.EncodeError,
        (encodeAll enc (localPathFor k) outputFormats
          { st with locals := setk st.locals (localPathFor k) c }).1) :=
    processVideoWith_join_fails outputFormats enc hk hfail
  refine ⟨h1, ?_, ?_⟩
  · exact encodeAll_store enc (localPathFor k) outputFormats _
  · simp only [eachMessage, if_neg hne]
    exact h1

/-- Witness for C2: with an encoder that fails on the `avi` target, the
handler on `videos/y.mov` errors out with the blob store unchanged. -/
theorem encode_failure_uploads_nothing_witness :
    processVideo encFailAvi stY "videos/y.mov" =
      Except.error (Err.EncodeError,
        (encodeAll encFailAvi (localPathFor "videos/y.mov") outputFormats
          { stY with locals := setk stY.locals (localPathFor "videos/y.mov") 7 }).1) ∧
    (encodeAll encFailAvi (localPathFor "videos/y.mov") outputFormats
      { stY with locals := setk stY.locals (localPathFor "videos/y.mov") 7 }).1.store
      = stY.store ∧
    eachMessage encFailAvi stY (some "videos/y.mov") =
      Except.error (Err.EncodeError,
        (encodeAll encFailAvi (localPathFor "videos/y.mov") outputFormats
          { stY with locals := setk stY.locals (localPathFor "videos/y.mov") 7 }).1) :=
  encode_failure_uploads_nothing encFailAvi stY "videos/y.mov" 7
    (by decide) (by decide) (by decide)

/-- C3: the claim that every conversion's computed output path differs from
the local original's path is false on the code: for the event key
`videos/x.mp4` and the configured target format `mp4`, `encodeVideo` computes
exactly the local original's path (`processVideo` downloads the original into
the same `temp_encoded` directory the encoder writes to, so a target format
equal to the original's extension collides with the original). -/
theorem mp4_output_path_collides_with_original :
    localPathFor "videos/x.mp4" = "temp_encoded/x.mp4" ∧
    encodeOutputPath (localPathFor "videos/x.mp4") "mp4" =
      localPathFor "videos/x.mp4" ∧
    "mp4" ∈ outputFormats := by
  refine ⟨by decide, by decide, by decide⟩

/-- C7: if one of the concurrent conversions always fails while another
always succeeds, the handler errors out at the join carrying exactly the
post-fan-out state: the successful conversion's completed local output file
is still present (neither deleted nor uploaded) and the blob store has gained
nothing. -/
theorem partial_failure_orphans_outputs (enc : Nat → String → Option Nat)
    (st : PState) (k : String) (c : Nat) (f g : String)
    (hk : lookupF st.store k = some c)
    (hfmem : f ∈ outputFormats) (hgmem : g ∈ outputFormats)
    (hffail : ∀ c', enc c' f = none)
    (hgok : ∀ c', (enc c' g).isSome = true) :
    processVideo enc st k =
      Except.error (Err.EncodeError,
        (encodeAll enc (localPathFor k) outputFormats
          { st with locals := setk st.locals (localPathFor k) c }).1) ∧
    hask (encodeAll enc (localPathFor k) outputFormats
      { st with locals := setk st.locals (localPathFor k) c }).1.locals
      (encodeOutputPath (localPathFor k) g) = true ∧
    (encodeAll enc (localPathFor k) outputFormats
      { st with locals := setk st.locals (localPathFor k) c }).1.store = st.store := by
  have hflag : (encodeAll enc (localPathFor k) outputFormats
      { st with locals := setk st.locals (localPathFor k) c }).2 = false :=
    encodeAll_flag_false enc (localPathFor k) f hffail outputFormats _ hfmem
  refine ⟨processVideoWith_join_fails outputFormats enc hk hflag, ?_, ?_⟩
  · apply encodeAll_output_kept enc (localPathFor k) g hgok outputFormats _ hgmem
    exact hask_setk_self _ _ _
  · exact encodeAll_store enc (localPathFor k) outputFormats _

/-- Witness for C7: encoder failing on `avi` but succeeding on `webm`, event
`videos/y.mov`: the handler errors, the completed `temp_encoded/y.webm`
remains on disk, the store is unchanged. -/
theorem partial_failure_orphans_outputs_witness :
    processVideo encFailAvi stY "videos/y.mov" =
      Except.error (Err.EncodeError,
        (encodeAll encFailAvi (localPathFor "videos/y.mov") outputFormats
          { stY with locals := setk stY.locals (localPathFor "videos/y.mov") 7 }).1) ∧
    hask (encodeAll encFailAvi (localPathFor "videos/y.mov") outputFormats
      { stY with locals := setk stY.locals (localPathFor "videos/y.mov") 7 }).1.locals
      (encodeOutputPath (localPathFor "videos/y.mov") "webm") = true ∧
    (encodeAll encFailAvi (localPathFor "videos/y.mov") outputFormats
      { stY with locals := setk stY.locals (localPathFor "videos/y.mov") 7 }).1.store
      = stY.store :=
  partial_failure_orphans_outputs encFailAvi stY "videos/y.mov" 7 "avi" "webm"
    (by decide) (by decide) (by decide) (fun _ => rfl) (fun _ => rfl)

/-- C9: for an event whose key names no stored object, the `get` step fails
with a store-read error, the handler errors out, and the returned failure
state is the initial state unchanged (no writes before or after the failure,
and no encode is reached). -/
theorem missing_object_fails_cleanly (enc : Nat → String → Option Nat)
    (st : PState) (k : String)
    (hk : lookupF st.store k = none) (hne : k ≠ "") :
    processVideo enc st k = Except.error (Err.StoreReadError, st) ∧
    eachMessage enc st (some k) = Except.error (Err.StoreReadError, st) := by
  have h1 : processVideo enc st k = Except.error (Err.StoreReadError, st) :=
    processVideoWith_no_object outputFormats enc hk
  refine ⟨h1, ?_⟩
  simp only [eachMessage, if_neg hne]
  exact h1

/-- Witness for C9: an empty store and the key `videos/z.mp4`. -/
theorem missing_object_fails_cleanly_witness :
    processVideo encAll stEmpty "videos/z.mp4" =
      Except.error (Err.StoreReadError, stEmpty) ∧
    eachMessage encAll stEmpty (some "videos/z.mp4") =
      Except.error (Err.StoreReadError, stEmpty) :=
  missing_object_fails_cleanly encAll stEmpty "videos/z.mp4" rfl (by decide)

/-- C10: a missing payload or one decoding to the empty string makes the
consumer handler log a warning and return without error and without touching
the blob store or the local files; a non-empty payload is handled exactly by
`processVideo`. -/
theorem invalid_payload_skipped (enc : Nat → String → Option Nat)
    (st : PState) :
    eachMessage enc st none = Except.ok { st with warned := st.warned + 1 } ∧
    eachMessage enc st (some "") =
      Except.ok { st with warned := st.warned + 1 } ∧
    ∀ s : String, s ≠ "" → eachMessage enc st (some s) = processVideo enc st s := by
  refine ⟨rfl, by simp [eachMessage], ?_⟩
  intro s hs
  simp only [eachMessage, if_neg hs]

/-- Witness for C10: a non-empty payload is handed to `processVideo`, and an
absent payload only increments the warning counter. -/
theorem invalid_payload_skipped_witness :
    eachMessage encAll stEmpty none =
      Except.ok { stEmpty with warned := stEmpty.warned + 1 } ∧
    eachMessage encAll stEmpty (some "videos/a.mp4") =
      processVideo encAll stEmpty "videos/a.mp4" :=
  ⟨(invalid_payload_skipped encAll stEmpty).1,
    (invalid_payload_skipped encAll stEmpty).2.2 "videos/a.mp4" (by decide)⟩

/-- C1: for every PipelineEvent whose handler run completes successfully, the
blob store afterwards contains exactly one object under
`encoded/<basename of the key without extension>.<format>` for each format in
the configured TranscodeTarget set. (The hypothesis on `basenameChars` states
that the key has a non-empty basename, as every `videos/<name>` BlobKey
does.) -/
theorem successful_handler_stores_all_formats (enc : Nat → String → Option Nat)
    (st st' : PState) (k : String)
    (hb : basenameChars k.data ≠ [])
    (h : processVideo enc st k = Except.ok st') :
    ∀ f ∈ outputFormats, countKey st'.store (encKey k f) = 1 := by
  intro f hf
  obtain ⟨c, st3, hc, hflag, hup, hul⟩ := processVideoWith_ok_inv h
  obtain ⟨-, hst'⟩ := unlink_ok_inv hul
  have hstore : st'.store = st3.store := by rw [hst']
  rw [hstore]
  apply uploadLoop_uploaded_once _ _ _ hup
  apply List.mem_map.mpr
  refine ⟨encodeOutputPath (localPathFor k) f, List.mem_map.mpr ⟨f, hf, rfl⟩, ?_⟩
  exact upKey_encodeOutputPath k f hb (outputFormats_no_slash f hf)

/-- Witness for C1: a successful run on `videos/y.mov` stores exactly one
object under `encoded/y.webm`. -/
theorem successful_handler_stores_all_formats_witness :
    countKey (⟨[], [("encoded/y.mkv", 8), ("encoded/y.webm", 8),
      ("encoded/y.avi", 8), ("encoded/y.mp4", 8), ("videos/y.mov", 7)],
      [], 0, 0⟩ : PState).store (encKey "videos/y.mov" "webm") = 1 :=
  successful_handler_stores_all_formats encAll stY
    ⟨[], [("encoded/y.mkv", 8), ("encoded/y.webm", 8), ("encoded/y.avi", 8),
      ("encoded/y.mp4", 8), ("videos/y.mov", 7)], [], 0, 0⟩
    "videos/y.mov" (by decide) (by decide) "webm" (by decide)

/-- C4: the claim's scenario — key `videos/x.mp4`, configured targets
`{mp4, avi}`, all encodes succeed — does not complete on the code: the `mp4`
conversion's output path is the local original's path, the upload loop
uploads `encoded/x.mp4` and `encoded/x.avi` and deletes both output files,
and the handler then throws on the final unlink of the original, whose file
was already consumed as the `mp4` output. The failure state shows the store
gained both encoded objects and every scratch file is gone, but the handler
ends in an uncaught unlink error instead of completing. -/
theorem mp4_scenario_handler_throws :
    processVideoWith ["mp4", "avi"] encAll stX "videos/x.mp4" =
      Except.error (Err.UnlinkError,
        ⟨[], [("encoded/x.avi", 9), ("encoded/x.mp4", 8), ("videos/x.mp4", 7)],
          [], 0, 0⟩) ∧
    encodeOutputPath (localPathFor "videos/x.mp4") "mp4" =
      localPathFor "videos/x.mp4" := by
  refine ⟨by decide, by decide⟩

/-- C5: for every SourceReference id occurring once in the work list whose
iteration succeeds (the downloader returns a file and the publish succeeds),
the acquisition run leaves exactly one blob-store object under the key
`videos/downloaded_video_<id>.mp4` derived from the id, and appends exactly
one event whose payload is that key to the topic. -/
theorem acquisition_one_object_one_event (dl : String → Option Nat)
    (pub : String → Bool) (id : String) (c : Nat)
    (hdl : dl id = some c) (hpub : pub (prodKey id) = true) :
    ∀ (ids : List String) (st : PState),
      countS ids id = 1 →
      countS st.published (prodKey id) = 0 →
      countKey (runProducerWith dl pub ids st).store (prodKey id) = 1 ∧
      countS (runProducerWith dl pub ids st).published (prodKey id) = 1 := by
  intro ids
  induction ids with
  | nil => intro st hone _; simp [countS] at hone
  | cons a rest ih =>
    intro st hone hp0
    by_cases ha : a = id
    · subst ha
      rw [countS, if_pos rfl] at hone
      have hrest0 : countS rest a = 0 := by omega
      have hnot : ∀ id2 ∈ rest, prodKey id2 ≠ prodKey a := by
        intro id2 h2 he
        exact countS_zero_not_mem hrest0 ((prodKey_inj id2 a he) ▸ h2)
      show countKey (runProducerWith dl pub rest (producerStep dl pub st a)).store
          (prodKey a) = 1 ∧
        countS (runProducerWith dl pub rest (producerStep dl pub st a)).published
          (prodKey a) = 1
      rw [producerStep_success dl pub st a c hdl hpub]
      obtain ⟨r1, r2, -⟩ := runProducerWith_other_key dl pub rest
        (⟨delk st.locals (prodLocal a), setk st.store (prodKey a) c,
          st.published ++ [prodKey a], st.errors, st.warned⟩ : PState)
        (prodKey a) hnot
      constructor
      · rw [r1]
        show countKey (setk st.store (prodKey a) c) (prodKey a) = 1
        exact countKey_setk_self _ _ _
      · rw [r2]
        show countS (st.published ++ [prodKey a]) (prodKey a) = 1
        rw [countS_append, hp0, countS, countS, if_pos rfl]
    · rw [countS, if_neg ha] at hone
      have hone2 : countS rest id = 1 := by omega
      have hKa : prodKey id ≠ prodKey a := fun h => ha (prodKey_inj a id h.symm)
      have hp0b : countS (producerStep dl pub st a).published (prodKey id) = 0 := by
        rw [(producerStep_other_key dl pub st a (prodKey id) hKa).2.1]
        exact hp0
      show countKey (runProducerWith dl pub rest (producerStep dl pub st a)).store
          (prodKey id) = 1 ∧
        countS (runProducerWith dl pub rest (producerStep dl pub st a)).published
          (prodKey id) = 1
      exact ih (producerStep dl pub st a) hone2 hp0b

/-- Witness for C5: the spec's scenario — work list `["v1"]` with an
always-succeeding downloader — yields exactly one object under
`videos/downloaded_video_v1.mp4` and one event with that payload. -/
theorem acquisition_one_object_one_event_witness :
    countKey (runProducerWith dlV1 pubAll ["v1"] stEmpty).store
      (prodKey "v1") = 1 ∧
    countS (runProducerWith dlV1 pubAll ["v1"] stEmpty).published
      (prodKey "v1") = 1 :=
  acquisition_one_object_one_event dlV1 pubAll "v1" 5 (by decide) rfl
    ["v1"] stEmpty (by decide) rfl

/-- C6: acquisition failures are isolated per work-list item: a download
failure is caught and logged (one error, nothing else changes) and the loop
proceeds, so in a three-item run where the downloader fails on the second
item, items one and three each still produce exactly one store object and
one event while item two produces neither, and exactly one error is
logged. -/
theorem acquisition_failure_isolated (dl : String → Option Nat)
    (pub : String → Bool) (a b c2 : String) (st : PState) (ca cc : Nat)
    (hda : dl a = some ca) (hdb : dl b = none) (hdc : dl c2 = some cc)
    (hpa : pub (prodKey a) = true) (hpc : pub (prodKey c2) = true)
    (hba : b ≠ a) (hbc : b ≠ c2) (hac : a ≠ c2)
    (hsb : hask st.store (prodKey b) = false)
    (hpb : countS st.published (prodKey b) = 0)
    (hp0a : countS st.published (prodKey a) = 0)
    (hp0c : countS st.published (prodKey c2) = 0) :
    (∀ (st2 : PState) (x : String), dl x = none →
      producerStep dl pub st2 x = { st2 with errors := st2.errors + 1 }) ∧
    countKey (runProducerWith dl pub [a, b, c2] st).store (prodKey a) = 1 ∧
    countKey (runProducerWith dl pub [a, b, c2] st).store (prodKey c2) = 1 ∧
    countS (runProducerWith dl pub [a, b, c2] st).published (prodKey a) = 1 ∧
    countS (runProducerWith dl pub [a, b, c2] st).published (prodKey c2) = 1 ∧
    hask (runProducerWith dl pub [a, b, c2] st).store (prodKey b) = false ∧
    countS (runProducerWith dl pub [a, b, c2] st).published (prodKey b) = 0 ∧
    (runProducerWith dl pub [a, b, c2] st).errors = st.errors + 1 := by
  have hKba : prodKey b ≠ prodKey a := fun h => hba (prodKey_inj b a h)
  have hKab : prodKey a ≠ prodKey b := fun h => hba (prodKey_inj b a h.symm)
  have hKbc : prodKey b ≠ prodKey c2 := fun h => hbc (prodKey_inj b c2 h)
  have hKcb : prodKey c2 ≠ prodKey b := fun h => hbc (prodKey_inj b c2 h.symm)
  have hKac : prodKey a ≠ prodKey c2 := fun h => hac (prodKey_inj a c2 h)
  have hKca : prodKey c2 ≠ prodKey a := fun h => hac (prodKey_inj a c2 h.symm)
  refine ⟨fun st2 x hx => producerStep_dl_fails dl pub st2 x hx, ?_⟩
  simp only [runProducerWith]
  rw [producerStep_success dl pub st a ca hda hpa]
  rw [producerStep_dl_fails dl pub _ b hdb]
  rw [producerStep_success dl pub _ c2 cc hdc hpc]
  refine ⟨?_, ?_, ?_, ?_, ?_, ?_, ?_⟩
  · simp [countKey_setk_ne _ _ _ _ hKac, countKey_setk_self]
  · simp [countKey_setk_self]
  · simp [countS_append, countS, hp0a, hKca, hKba, hKab, hKac]
  · simp [countS_append, countS, hp0c, hKca, hKac, hKab]
  · simp [hask_setk_ne _ _ _ _ hKbc, hask_setk_ne _ _ _ _ hKba, hsb]
  · simp [countS_append, countS, hpb, hKab, hKcb, hKba, hKbc]
  · simp

/-- Witness for C6: ids `a`, `b`, `c` with the downloader failing on `b`:
items 1 and 3 produce their object and event, item 2 produces neither. -/
theorem acquisition_failure_isolated_witness :
    (∀ (st2 : PState) (x : String), dlNotB x = none →
      producerStep dlNotB pubAll st2 x = { st2 with errors := st2.errors + 1 }) ∧
    countKey (runProducerWith dlNotB pubAll ["a", "b", "c"] stEmpty).store
      (prodKey "a") = 1 ∧
    countKey (runProducerWith dlNotB pubAll ["a", "b", "c"] stEmpty).store
      (prodKey "c") = 1 ∧
    countS (runProducerWith dlNotB pubAll ["a", "b", "c"] stEmpty).published
      (prodKey "a") = 1 ∧
    countS (runProducerWith dlNotB pubAll ["a", "b", "c"] stEmpty).published
      (prodKey "c") = 1 ∧
    hask (runProducerWith dlNotB pubAll ["a", "b", "c"] stEmpty).store
      (prodKey "b") = false ∧
    countS (runProducerWith dlNotB pubAll ["a", "b", "c"] stEmpty).published
      (prodKey "b") = 0 ∧
    (runProducerWith dlNotB pubAll ["a", "b", "c"] stEmpty).errors =
      stEmpty.errors + 1 :=
  acquisition_failure_isolated dlNotB pubAll "a" "b" "c" stEmpty 6 6
    (by decide) (by decide) (by decide) rfl rfl
    (by decide) (by decide) (by decide) rfl rfl rfl rfl

/-- C8: processing is not deduplicated: if the handler processed key `k`
successfully, redelivering `k` runs the full get/encode/put sequence again
and succeeds, re-writing the encoded outputs under exactly the same
`encoded/` keys, with `put` overwriting existing objects without error (the
first conjunct: an upload with an existing source never fails, whatever is
already stored under the destination key); the blob store after the second
run agrees with the store after the first run on every key. -/
theorem redelivery_reprocesses_same_keys (enc : Nat → String → Option Nat) (st st1 : PState) (k : String)
    (h1 : processVideo enc st k = Except.ok st1) :
    (∀ (stw : PState) (p K : String) (v : Nat), lookupF stw.locals p = some v →
      uploadToS3 stw p K = Except.ok { stw with store := setk stw.store K v }) ∧
    ∃ st2, processVideo enc st1 k = Except.ok st2 ∧
      ∀ K, lookupF st2.store K = lookupF st1.store K := by
  refine ⟨fun stw p K v hv => uploadToS3_some K hv, ?_⟩
  have h1w : processVideoWith outputFormats enc st k = Except.ok st1 := h1
  obtain ⟨c, st3, hc, hflag, hup, hul⟩ := processVideoWith_ok_inv h1w
  obtain ⟨hl3, hst1⟩ := unlink_ok_inv hul
  -- the local original is not one of the conversion output paths
  have hlocnot : localPathFor k ∉ outputFormats.map (encodeOutputPath (localPathFor k)) := by
    intro hmem
    have hgone := uploadLoop_paths_gone _ _ _ hup (localPathFor k) hmem
    have hcontra := hgone.symm.trans hl3
    simp at hcontra
  have hout : ∀ f ∈ outputFormats,
      encodeOutputPath (localPathFor k) f ≠ localPathFor k := by
    intro f hf he
    have hm : encodeOutputPath (localPathFor k) f ∈
        outputFormats.map (encodeOutputPath (localPathFor k)) :=
      List.mem_map.mpr ⟨f, hf, rfl⟩
    rw [he] at hm
    exact hlocnot hm
  -- run 1 is stable: the input content read by every conversion is c
  have hinD1 : lookupF ({ st with locals := setk st.locals (localPathFor k) c } : PState).locals
      (localPathFor k) = some c := lookupF_setk_self _ _ _
  obtain ⟨hflagEq, hlocA⟩ := encodeAll_stable enc (localPathFor k) c outputFormats
    { st with locals := setk st.locals (localPathFor k) c } hinD1 hout
  have hallS : outputFormats.all (fun f => (enc c f).isSome) = true :=
    hflagEq.symm.trans hflag
  -- the event key is not one of the uploaded keys
  have hknot : k ∉ (outputFormats.map (encodeOutputPath (localPathFor k))).map upKey := by
    intro hmem
    obtain ⟨p, hp, hpk⟩ := List.mem_map.mp hmem
    obtain ⟨f, hf, hfp⟩ := List.mem_map.mp hp
    have hocol := key_eq_upKey_forces_collision k f (outputFormats_no_slash f hf)
      (by rw [hfp, hpk])
    exact hout f hf hocol.symm
  -- hence the original object is still under k with the same content
  have hstore3 : lookupF st3.store k = some c := by
    rw [(uploadLoop_store_untouched _ _ _ hup k hknot).1, encodeAll_store]
    exact hc
  have hst1store : st1.store = st3.store := by rw [hst1]
  have hc2 : lookupF st1.store k = some c := by rw [hst1store]; exact hstore3
  -- run 2: the same download, the same conversions
  have hinD2 : lookupF ({ st1 with locals := setk st1.locals (localPathFor k) c } : PState).locals
      (localPathFor k) = some c := lookupF_setk_self _ _ _
  obtain ⟨hflagEq2, hlocB⟩ := encodeAll_stable enc (localPathFor k) c outputFormats
    { st1 with locals := setk st1.locals (localPathFor k) c } hinD2 hout
  have hflag2 : (encodeAll enc (localPathFor k) outputFormats
      { st1 with locals := setk st1.locals (localPathFor k) c }).2 = true :=
    hflagEq2.trans hallS
  have hpsnd : (outputFormats.map (encodeOutputPath (localPathFor k))).Nodup :=
    List.Nodup.map (fun f g hfg => encodeOutputPath_inj (localPathFor k) f g hfg)
      outputFormats_nodup
  have hpresent : ∀ p ∈ outputFormats.map (encodeOutputPath (localPathFor k)),
      hask (encodeAll enc (localPathFor k) outputFormats
        { st1 with locals := setk st1.locals (localPathFor k) c }).1.locals p = true := by
    intro p hp
    obtain ⟨f, hf, hfp⟩ := List.mem_map.mp hp
    obtain ⟨w, hw⟩ := all_isSome_get hallS f hf
    rw [← hfp]
    show (lookupF (encodeAll enc (localPathFor k) outputFormats
      { st1 with locals := setk st1.locals (localPathFor k) c }).1.locals
      (encodeOutputPath (localPathFor k) f)).isSome = true
    rw [hlocB, encFold_output enc (localPathFor k) c outputFormats _ f w hf hw]
    rfl
  obtain ⟨st3', hup2⟩ := uploadLoop_total _ _ hpsnd hpresent
  -- after run 2's upload loop the local original is still present
  have hlB : hask (encodeAll enc (localPathFor k) outputFormats
      { st1 with locals := setk st1.locals (localPathFor k) c }).1.locals
      (localPathFor k) = true := by
    show (lookupF (encodeAll enc (localPathFor k) outputFormats
      { st1 with locals := setk st1.locals (localPathFor k) c }).1.locals
      (localPathFor k)).isSome = true
    rw [hlocB, encFold_lookup_untouched enc (localPathFor k) c outputFormats _
      (localPathFor k) hout, hinD2]
    rfl
  have hl3b : hask st3'.locals (localPathFor k) = true :=
    uploadLoop_locals_kept _ _ _ hup2 (localPathFor k) hlocnot hlB
  obtain ⟨w0, hw0⟩ := hask_true_exists hl3b
  refine ⟨{ st3' with locals := delk st3'.locals (localPathFor k) }, ?_, ?_⟩
  · show processVideoWith outputFormats enc st1 k = Except.ok _
    exact processVideoWith_all_ok outputFormats enc hc2 hflag2 hup2 (unlink_some hw0)
  · intro K
    show lookupF st3'.store K = lookupF st1.store K
    by_cases hK : K ∈ (outputFormats.map (encodeOutputPath (localPathFor k))).map upKey
    · obtain ⟨p, hp, hpk⟩ := List.mem_map.mp hK
      obtain ⟨f, hf, hfp⟩ := List.mem_map.mp hp
      have hdist : ∀ q ∈ outputFormats.map (encodeOutputPath (localPathFor k)),
          q ≠ p → upKey q ≠ upKey p := by
        intro q hq hqp he
        obtain ⟨g, hg, hgq⟩ := List.mem_map.mp hq
        apply hqp
        rw [← hgq, ← hfp]
        have hgf : g = f := upKey_encodeOutputPath_inj (localPathFor k) g f
          (outputFormats_no_slash g hg) (outputFormats_no_slash f hf)
          (by rw [hgq, hfp]; exact he)
        rw [hgf]
      obtain ⟨w, hw⟩ := all_isSome_get hallS f hf
      have hv1 : lookupF st3.store (upKey p) = some w := by
        rw [uploadLoop_uploaded_value _ _ _ hup hpsnd p hp hdist, hlocA, ← hfp]
        exact encFold_output enc (localPathFor k) c outputFormats _ f w hf hw
      have hv2 : lookupF st3'.store (upKey p) = some w := by
        rw [uploadLoop_uploaded_value _ _ _ hup2 hpsnd p hp hdist, hlocB, ← hfp]
        exact encFold_output enc (localPathFor k) c outputFormats _ f w hf hw
      rw [← hpk, hv2, hst1store, hv1]
    · rw [(uploadLoop_store_untouched _ _ _ hup2 K hK).1, encodeAll_store]

/-- Witness for C8: redelivering `videos/y.mov` to the state left by its
first successful processing succeeds again and changes no store key. -/
theorem redelivery_reprocesses_same_keys_witness :
    (∀ (stw : PState) (p K : String) (v : Nat), lookupF stw.locals p = some v →
      uploadToS3 stw p K = Except.ok { stw with store := setk stw.store K v }) ∧
    ∃ st2, processVideo encAll stYdone "videos/y.mov" = Except.ok st2 ∧
      ∀ K, lookupF st2.store K = lookupF stYdone.store K :=
  redelivery_reprocesses_same_keys encAll stY stYdone "videos/y.mov" (by decide)

end VideoPipeline

